import Mathlib

/-
Verification of the singly linked list implementation in
src/linked-list/src/main.cpp (class LinkedList).

Embedding choices:
  - A list state is a structure holding the chain of node values reachable
    from the head pointer (a Lean list, which is inherently acyclic with the
    last node linking to nothing) together with the separately tracked
    length field, so that the agreement of the two is a provable invariant
    rather than true by construction.
  - Throwing operations (get_node, insert_at, and delete_at, which calls
    get_node) return Except String, mirroring std::out_of_range with its
    message.
  - delete_at and delete_value return, besides the new state, the bool the
    source returns and an optional diagnostic string, modelling the text
    written to std::cerr on their failure paths.
  - print returns the string the source writes to std::cout.
-/

set_option autoImplicit false

namespace LinkedListC

/-- State of the C++ LinkedList object: the chain of node values reachable
from the head pointer, and the length field. -/
structure LinkedList where
  head : List Int
  length : Nat
  deriving DecidableEq, Repr

/-- The constructor LinkedList() : head(nullptr), length(0). -/
def mkEmpty : LinkedList := ⟨[], 0⟩

/-- size() const : returns length. -/
def size (l : LinkedList) : Nat := l.length

/-- empty() const : length == 0. -/
def emptyCheck (l : LinkedList) : Bool := l.length == 0

/-- get_node(index) : throws out_of_range when index is not below the length
field; otherwise walks index successor links from the head and returns the
node found there, modelled as the chain suffix starting at that node. -/
def get_node (l : LinkedList) (index : Nat) : Except String (List Int) :=
  if index ≥ l.length then Except.error "Index out of range"
  else Except.ok (l.head.drop index)

/-- push_front(value) : new node linked before the current head. -/
def push_front (l : LinkedList) (value : Int) : LinkedList :=
  { head := value :: l.head, length := l.length + 1 }

/-- The tail-walking loop of push_back: walk to the last node and hang the
new node on its empty successor slot. -/
def appendNode : List Int → Int → List Int
  | [], value => [value]
  | x :: rest, value => x :: appendNode rest value

/-- push_back(value) : appends after the last node (head if empty). -/
def push_back (l : LinkedList) (value : Int) : LinkedList :=
  { head := appendNode l.head value, length := l.length + 1 }

/-- The pointer splice of insert_at's general branch: walk to the node at
index - 1 (get_node's loop) and splice the new node between it and its
successor.  Walking i links and splicing after the reached node is the same
chain surgery as descending i positions and consing there. -/
def insertNode : List Int → Nat → Int → List Int
  | chain, 0, value => value :: chain
  | [], _ + 1, value => [value]
  | x :: rest, i + 1, value => x :: insertNode rest i value

/-- insert_at(index, value) : throws out_of_range when index > length,
delegates to push_front at index 0 and push_back at index == length, and
otherwise splices after the node returned by get_node(index - 1). -/
def insert_at (l : LinkedList) (index : Nat) (value : Int) :
    Except String LinkedList :=
  if index > l.length then Except.error "Index out of range"
  else if index = 0 then Except.ok (push_front l value)
  else if index = l.length then Except.ok (push_back l value)
  else
    match get_node l (index - 1) with
    | Except.error e => Except.error e
    | Except.ok _ =>
      Except.ok { head := insertNode l.head index value, length := l.length + 1 }

/-- Diagnostic written to std::cerr by delete_at on an empty list. -/
def diagDeleteAtEmpty : String := "Error: delete_at on empty list\n"

/-- Diagnostic written to std::cerr by delete_at on an out-of-range index. -/
def diagIndexOutOfRange : String := "Error: index out of range\n"

/-- Diagnostic written to std::cerr by delete_value on an empty list. -/
def diagDeleteValueEmpty : String := "Error: delete_value on empty list\n"

/-- Diagnostic written to std::cerr by delete_value when no node matches. -/
def diagValueNotFound : String := "Info: value not found\n"

/-- The unlink of delete_at's general branch: walk to the node at index - 1,
take its successor as the target, and bypass the target.  Equivalently,
descend to position index and drop the node there. -/
def removeNth : List Int → Nat → List Int
  | [], _ => []
  | _ :: rest, 0 => rest
  | x :: rest, i + 1 => x :: removeNth rest i

/-- delete_at(index) : returns (new state, success bool, cerr diagnostic).
Fails with a diagnostic and no state change on an empty list or an index not
below length; deletes the head at index 0; otherwise unlinks the successor
of the node returned by get_node(index - 1). -/
def delete_at (l : LinkedList) (index : Nat) :
    Except String (LinkedList × Bool × Option String) :=
  if l.length = 0 then Except.ok (l, false, some diagDeleteAtEmpty)
  else if index ≥ l.length then Except.ok (l, false, some diagIndexOutOfRange)
  else if index = 0 then
    Except.ok ({ head := l.head.tail, length := l.length - 1 }, true, none)
  else
    match get_node l (index - 1) with
    | Except.error e => Except.error e
    | Except.ok _ =>
      Except.ok ({ head := removeNth l.head index, length := l.length - 1 }, true, none)

/-- The prev and curr loop of delete_value, started at prev = head and
curr = head's successor: returns the chain after the scanned prefix with the
first node holding the value unlinked, or none when no node matches. -/
def removeFirstMatch (value : Int) : List Int → Option (List Int)
  | [] => none
  | x :: rest =>
    if x = value then some rest
    else
      match removeFirstMatch value rest with
      | some rest' => some (x :: rest')
      | none => none

/-- delete_value(value) : returns (new state, success bool, cerr diagnostic).
Fails with a diagnostic on an empty list; deletes the head when it holds the
value; otherwise runs the prev and curr scan, failing with a diagnostic when
no node matches.  The inner empty-chain case is unreachable for well-formed
states: there the source would dereference a null head. -/
def delete_value (l : LinkedList) (value : Int) :
    LinkedList × Bool × Option String :=
  if l.length = 0 then (l, false, some diagDeleteValueEmpty)
  else
    match l.head with
    | [] => (l, false, none)
    | x :: rest =>
      if x = value then ({ head := rest, length := l.length - 1 }, true, none)
      else
        match removeFirstMatch value rest with
        | some rest' => ({ head := x :: rest', length := l.length - 1 }, true, none)
        | none => (l, false, some diagValueNotFound)

/-- The printing loop of print(): each value, with an arrow between a node
and its successor. -/
def renderChain : List Int → String
  | [] => ""
  | [x] => toString x
  | x :: y :: rest => toString x ++ " -> " ++ renderChain (y :: rest)

/-- print() const : the full line written to std::cout. -/
def render (l : LinkedList) : String :=
  "[" ++ renderChain l.head ++ "] (size=" ++ toString l.length ++ ")\n"

/-- The destructor's while loop, carried state curr plus the sequence of
nodes released so far (each delete curr appends the released node).  The
accumulator-passing recursion is the loop: no call stack grows with the
chain. -/
def destructorLoop : List Int → List Int → List Int
  | [], released => released
  | x :: next, released => destructorLoop next (released ++ [x])

/-- ~LinkedList() : the sequence of nodes released by the teardown loop,
started at the head with nothing yet released. -/
def destructorReleases (l : LinkedList) : List Int :=
  destructorLoop l.head []

/-- Structural invariant: the length field equals the number of nodes
reachable from the head.  Acyclicity and the null successor of the last
node are inherent to the chain representation; the head being null exactly
when length is zero follows (see the invariant theorems). -/
def WF (l : LinkedList) : Prop := l.length = l.head.length

instance (l : LinkedList) : Decidable (WF l) := by
  unfold WF; infer_instance

/-- One public call of the driver-visible API, for quantifying over
operation sequences. -/
inductive Op where
  | pushFront (value : Int)
  | pushBack (value : Int)
  | insertAt (index : Nat) (value : Int)
  | deleteAt (index : Nat)
  | deleteValue (value : Int)
  | render
  deriving DecidableEq, Repr

/-- Apply one operation, returning the new state and whether the call
succeeded (a thrown out_of_range or a false return counts as failure;
push_front, push_back and render always succeed). -/
def applyOp (l : LinkedList) : Op → LinkedList × Bool
  | Op.pushFront v => (push_front l v, true)
  | Op.pushBack v => (push_back l v, true)
  | Op.insertAt i v =>
    match insert_at l i v with
    | Except.ok l' => (l', true)
    | Except.error _ => (l, false)
  | Op.deleteAt i =>
    match delete_at l i with
    | Except.ok (l', ok, _) => (l', ok)
    | Except.error _ => (l, false)
  | Op.deleteValue v => ((delete_value l v).1, (delete_value l v).2.1)
  | Op.render => (l, true)

/-- Whether the operation counts as a successful insertion. -/
def insOf : Op → Bool → Nat
  | Op.pushFront _, true => 1
  | Op.pushBack _, true => 1
  | Op.insertAt _ _, true => 1
  | _, _ => 0

/-- Whether the operation counts as a successful deletion. -/
def delOf : Op → Bool → Nat
  | Op.deleteAt _, true => 1
  | Op.deleteValue _, true => 1
  | _, _ => 0

/-- Run a sequence of operations, returning the final state together with
the number of successful insertions and of successful deletions. -/
def runCount : LinkedList → List Op → LinkedList × Nat × Nat
  | l, [] => (l, 0, 0)
  | l, op :: ops =>
    let s := applyOp l op
    let r := runCount s.1 ops
    (r.1, r.2.1 + insOf op s.2, r.2.2 + delOf op s.2)

end LinkedListC

namespace LinkedListC

theorem appendNode_eq (chain : List Int) (v : Int) :
    appendNode chain v = chain ++ [v] := by
  induction chain with
  | nil => rfl
  | cons x rest ih => simp [appendNode, ih]

theorem insertNode_eq (chain : List Int) (i : Nat) (v : Int) (h : i ≤ chain.length) :
    insertNode chain i v = chain.take i ++ v :: chain.drop i := by
  induction chain generalizing i with
  | nil =>
    have hi : i = 0 := Nat.le_zero.mp (by simpa using h)
    subst hi
    rfl
  | cons x rest ih =>
    cases i with
    | zero => rfl
    | succ i =>
      simp only [List.length_cons, Nat.succ_le_succ_iff] at h
      simp [insertNode, ih i h]

theorem removeNth_eq (chain : List Int) (i : Nat) :
    removeNth chain i = chain.take i ++ chain.drop (i + 1) := by
  induction chain generalizing i with
  | nil => simp [removeNth]
  | cons x rest ih =>
    cases i with
    | zero => rfl
    | succ i => simp [removeNth, ih i]

theorem removeFirstMatch_of_not_mem (v : Int) (chain : List Int) (h : v ∉ chain) :
    removeFirstMatch v chain = none := by
  induction chain with
  | nil => rfl
  | cons x rest ih =>
    have hx : ¬ x = v := fun he => h (by simp [he])
    have hr : v ∉ rest := fun hr => h (List.mem_cons_of_mem x hr)
    simp [removeFirstMatch, if_neg hx, ih hr]

theorem removeFirstMatch_mem (v : Int) (chain : List Int) (h : v ∈ chain) :
    ∃ p q, chain = p ++ v :: q ∧ v ∉ p ∧ removeFirstMatch v chain = some (p ++ q) := by
  induction chain with
  | nil => cases h
  | cons x rest ih =>
    by_cases hx : x = v
    · subst hx
      exact ⟨[], rest, rfl, by simp, by simp [removeFirstMatch]⟩
    · have hv : v ∈ rest := by
        rcases List.mem_cons.mp h with h1 | h2
        · exact absurd h1.symm hx
        · exact h2
      obtain ⟨p, q, hco, hnp, hrm⟩ := ih hv
      refine ⟨x :: p, q, by simp [hco], ?_, ?_⟩
      · simp only [List.mem_cons, not_or]
        exact ⟨fun he => hx he.symm, hnp⟩
      · simp [removeFirstMatch, if_neg hx, hrm]

theorem destructorLoop_eq (chain : List Int) (acc : List Int) :
    destructorLoop chain acc = acc ++ chain := by
  induction chain generalizing acc with
  | nil => simp [destructorLoop]
  | cons x rest ih => simp [destructorLoop, ih]

theorem delete_at_false_noop (l : LinkedList) (i : Nat)
    (r : LinkedList × Bool × Option String)
    (hok : delete_at l i = Except.ok r) (hf : r.2.1 = false) : r.1 = l := by
  unfold delete_at at hok
  split at hok
  · cases hok; rfl
  · split at hok
    · cases hok; rfl
    · split at hok
      · cases hok; simp at hf
      · split at hok
        · cases hok
        · cases hok; simp at hf

theorem delete_value_false_noop (l : LinkedList) (v : Int)
    (hf : (delete_value l v).2.1 = false) : (delete_value l v).1 = l := by
  obtain ⟨hd, len⟩ := l
  cases len with
  | zero => rfl
  | succ n =>
    cases hd with
    | nil => rfl
    | cons x rest =>
      simp only [delete_value, Nat.succ_ne_zero, if_false] at hf ⊢
      by_cases hx : x = v
      · rw [if_pos hx] at hf
        simp at hf
      · rw [if_neg hx] at hf ⊢
        cases hm : removeFirstMatch v rest with
        | some r2 =>
          rw [hm] at hf
          simp at hf
        | none =>
          rfl

theorem failing_op_is_noop (l : LinkedList) (op : Op)
    (h : (applyOp l op).2 = false) : (applyOp l op).1 = l := by
  cases op with
  | pushFront v => simp [applyOp] at h
  | pushBack v => simp [applyOp] at h
  | render => simp [applyOp] at h
  | insertAt i v =>
    simp only [applyOp] at h ⊢
    split at h
    · simp at h
    · rename_i e heq
      simp [heq]
  | deleteAt i =>
    simp only [applyOp] at h ⊢
    cases hd : delete_at l i with
    | ok r =>
      obtain ⟨l2, ok2, d2⟩ := r
      simp only [hd] at h ⊢
      exact delete_at_false_noop l i (l2, ok2, d2) hd h
    | error e =>
      simp [hd]
  | deleteValue v =>
    simp only [applyOp] at h ⊢
    exact delete_value_false_noop l v h

/-- Witness for C5: delete_at 0 on the empty list fails and changes nothing. -/
theorem failing_op_is_noop_witness :
    (applyOp mkEmpty (Op.deleteAt 0)).2 = false ∧
      (applyOp mkEmpty (Op.deleteAt 0)).1 = mkEmpty :=
  ⟨by decide, failing_op_is_noop mkEmpty (Op.deleteAt 0) (by decide)⟩

/-- C6: starting from an empty list, push_back(10), push_back(20), push_front(5)
and then render produce exactly the claimed text, values in order, bracketed and
arrow-separated, with the size appended, followed by the line terminator the
source writes; render is a pure function of the state, so nothing is mutated. -/
theorem render_after_pushes :
    render (push_front (push_back (push_back mkEmpty 10) 20) 5) =
      "[5 -> 10 -> 20] (size=3)" ++ "\n" := by decide

/-- C10: on any list state, push_front of any value followed by delete_at 0
succeeds and returns the state to exactly what it was, with no diagnostic. -/
theorem push_front_then_delete_at_zero (l : LinkedList) (v : Int) :
    delete_at (push_front l v) 0 = Except.ok (l, true, none) := by
  simp [delete_at, push_front]

/-- C9: destroying a well-formed list releases exactly the nodes of its chain,
in order, each exactly once, and their number is the length field; the
teardown is the accumulator-passing loop destructorLoop, mirroring the
iterative while loop of the destructor. -/
theorem destructor_releases_each_node_once (l : LinkedList) (h : WF l) :
    destructorReleases l = l.head ∧ (destructorReleases l).length = l.length := by
  have he : destructorReleases l = l.head := by
    simp [destructorReleases, destructorLoop_eq]
  exact ⟨he, by rw [he, h]⟩

/-- Witness for C9 at a concrete three-node list. -/
theorem destructor_releases_each_node_once_witness :
    destructorReleases ⟨[1, 2, 3], 3⟩ = [1, 2, 3] ∧
      (destructorReleases ⟨[1, 2, 3], 3⟩).length = 3 :=
  destructor_releases_each_node_once ⟨[1, 2, 3], 3⟩ rfl

theorem WF_head_nil_iff (l : LinkedList) (h : WF l) :
    l.head = [] ↔ l.length = 0 := by
  rw [h, List.length_eq_zero]

theorem get_at_splice (chain : List Int) (i : Nat) (v : Int) (h : i ≤ chain.length) :
    (chain.take i ++ v :: chain.drop i)[i]? = some v := by
  rw [List.getElem?_append_right (by simp [List.length_take])]
  simp [List.length_take, Nat.min_eq_left h]

theorem insert_at_eq_oor (l : LinkedList) (index : Nat) (value : Int)
    (hgt : index > l.length) :
    insert_at l index value = Except.error "Index out of range" := by
  unfold insert_at
  rw [if_pos hgt]

theorem insert_at_eq_ok (l : LinkedList) (index : Nat) (value : Int) (h : WF l)
    (hle : index ≤ l.length) :
    insert_at l index value =
      Except.ok { head := l.head.take index ++ value :: l.head.drop index,
                  length := l.length + 1 } := by
  have hlen : l.head.length = l.length := h.symm
  unfold insert_at
  rw [if_neg (by omega)]
  by_cases h0 : index = 0
  · subst h0
    simp [push_front]
  · rw [if_neg h0]
    by_cases hN : index = l.length
    · rw [if_pos hN]
      subst hN
      simp [push_back, appendNode_eq, ← hlen, List.take_length, List.drop_length]
    · rw [if_neg hN]
      have hlt : index < l.length := lt_of_le_of_ne hle hN
      unfold get_node
      rw [if_neg (by omega), insertNode_eq l.head index value (by omega)]

theorem insert_at_ok_length (l : LinkedList) (index : Nat) (value : Int)
    (l2 : LinkedList) (hok : insert_at l index value = Except.ok l2) :
    l2.length = l.length + 1 := by
  unfold insert_at at hok
  split at hok
  · cases hok
  · split at hok
    · cases hok; rfl
    · split at hok
      · cases hok; rfl
      · split at hok
        · cases hok
        · cases hok; rfl

theorem delete_at_eq_empty (l : LinkedList) (index : Nat) (h0 : l.length = 0) :
    delete_at l index = Except.ok (l, false, some diagDeleteAtEmpty) := by
  unfold delete_at
  rw [if_pos h0]

theorem delete_at_eq_oor (l : LinkedList) (index : Nat) (h0 : l.length ≠ 0)
    (hge : index ≥ l.length) :
    delete_at l index = Except.ok (l, false, some diagIndexOutOfRange) := by
  unfold delete_at
  rw [if_neg h0, if_pos hge]

theorem delete_at_eq_ok (l : LinkedList) (index : Nat) (hlt : index < l.length) :
    delete_at l index =
      Except.ok ({ head := l.head.take index ++ l.head.drop (index + 1),
                   length := l.length - 1 }, true, none) := by
  unfold delete_at
  rw [if_neg (by omega), if_neg (by omega)]
  by_cases h0 : index = 0
  · subst h0
    rw [if_pos rfl]
    simp [List.drop_one]
  · rw [if_neg h0]
    unfold get_node
    rw [if_neg (by omega), removeNth_eq]

theorem delete_at_true_length (l : LinkedList) (i : Nat)
    (r : LinkedList × Bool × Option String)
    (hok : delete_at l i = Except.ok r) (ht : r.2.1 = true) :
    r.1.length + 1 = l.length := by
  unfold delete_at at hok
  split at hok
  · cases hok; simp at ht
  · split at hok
    · cases hok; simp at ht
    · split at hok
      · cases hok
        simp only []
        omega
      · split at hok
        · cases hok
        · cases hok
          simp only []
          omega

theorem delete_value_eq_empty (l : LinkedList) (value : Int) (h0 : l.length = 0) :
    delete_value l value = (l, false, some diagDeleteValueEmpty) := by
  unfold delete_value
  rw [if_pos h0]

theorem delete_value_eq_headhit (l : LinkedList) (value : Int) (h0 : l.length ≠ 0)
    (rest : List Int) (hh : l.head = value :: rest) :
    delete_value l value = ({ head := rest, length := l.length - 1 }, true, none) := by
  unfold delete_value
  rw [if_neg h0]
  simp [hh]

theorem delete_value_eq_scan (l : LinkedList) (value : Int) (h0 : l.length ≠ 0)
    (x : Int) (rest : List Int) (hh : l.head = x :: rest) (hx : ¬ x = value) :
    delete_value l value =
      (match removeFirstMatch value rest with
       | some rest' => ({ head := x :: rest', length := l.length - 1 }, true, none)
       | none => (l, false, some diagValueNotFound)) := by
  unfold delete_value
  rw [if_neg h0]
  simp only [hh]
  rw [if_neg hx]

theorem delete_value_eq_notfound (l : LinkedList) (value : Int) (h : WF l)
    (h0 : l.length ≠ 0) (hnm : value ∉ l.head) :
    delete_value l value = (l, false, some diagValueNotFound) := by
  cases hh : l.head with
  | nil =>
    exfalso
    rw [h, hh] at h0
    exact h0 rfl
  | cons x rest =>
    have hx : ¬ x = value := by
      intro he
      exact hnm (by rw [hh, he]; exact List.mem_cons_self value rest)
    rw [delete_value_eq_scan l value h0 x rest hh hx]
    rw [removeFirstMatch_of_not_mem value rest
      (fun hr => hnm (by rw [hh]; exact List.mem_cons_of_mem x hr))]

theorem delete_value_eq_found (l : LinkedList) (value : Int) (h : WF l)
    (hm : value ∈ l.head) :
    ∃ p q, l.head = p ++ value :: q ∧ value ∉ p ∧
      delete_value l value =
        ({ head := p ++ q, length := l.length - 1 }, true, none) := by
  have h0 : l.length ≠ 0 := by
    rw [h]
    intro hc
    rw [List.length_eq_zero] at hc
    rw [hc] at hm
    cases hm
  cases hh : l.head with
  | nil => rw [hh] at hm; cases hm
  | cons x rest =>
    by_cases hx : x = value
    · subst hx
      refine ⟨[], rest, by simp [hh], by simp, ?_⟩
      simpa using delete_value_eq_headhit l x h0 rest hh
    · have hvrest : value ∈ rest := by
        rw [hh] at hm
        rcases List.mem_cons.mp hm with h1 | h2
        · exact absurd h1.symm hx
        · exact h2
      obtain ⟨p, q, hco, hnp, hrm⟩ := removeFirstMatch_mem value rest hvrest
      refine ⟨x :: p, q, by simp [hh, hco], ?_, ?_⟩
      · simp only [List.mem_cons, not_or]
        exact ⟨fun he => hx he.symm, hnp⟩
      · rw [delete_value_eq_scan l value h0 x rest hh hx, hrm]
        rfl

theorem removeFirstMatch_length (v : Int) (chain r : List Int)
    (hm : removeFirstMatch v chain = some r) : r.length + 1 = chain.length := by
  induction chain generalizing r with
  | nil => cases hm
  | cons x rest ih =>
    by_cases hx : x = v
    · simp only [removeFirstMatch, if_pos hx] at hm
      cases hm
      simp
    · simp only [removeFirstMatch, if_neg hx] at hm
      cases hr : removeFirstMatch v rest with
      | none => rw [hr] at hm; cases hm
      | some r2 =>
        rw [hr] at hm
        cases hm
        simp [ih r2 hr]

theorem delete_value_true_length (l : LinkedList) (v : Int)
    (ht : (delete_value l v).2.1 = true) :
    (delete_value l v).1.length + 1 = l.length := by
  obtain ⟨hd, len⟩ := l
  cases len with
  | zero => cases ht
  | succ n =>
    cases hd with
    | nil => cases ht
    | cons x rest =>
      simp only [delete_value, Nat.succ_ne_zero, if_false] at ht ⊢
      by_cases hx : x = v
      · rw [if_pos hx]
        simp
      · rw [if_neg hx] at ht ⊢
        cases hm : removeFirstMatch v rest with
        | some r2 => rfl
        | none => simp [hm] at ht

theorem applyOp_length (l : LinkedList) (op : Op) :
    (applyOp l op).1.length + delOf op (applyOp l op).2 =
      l.length + insOf op (applyOp l op).2 := by
  cases op with
  | pushFront v => simp [applyOp, push_front, insOf, delOf]
  | pushBack v => simp [applyOp, push_back, insOf, delOf]
  | render => simp [applyOp, insOf, delOf]
  | insertAt i v =>
    simp only [applyOp]
    cases hok : insert_at l i v with
    | ok l2 =>
      have hl := insert_at_ok_length l i v l2 hok
      simp [insOf, delOf, hl]
    | error e => simp [insOf, delOf]
  | deleteAt i =>
    simp only [applyOp]
    cases hok : delete_at l i with
    | ok r =>
      obtain ⟨l2, ok2, d2⟩ := r
      cases ok2 with
      | false =>
        have hnoop : l2 = l := delete_at_false_noop l i (l2, false, d2) hok rfl
        subst hnoop
        simp [insOf, delOf]
      | true =>
        have hl := delete_at_true_length l i (l2, true, d2) hok rfl
        simp only at hl
        simp [insOf, delOf]
        omega
    | error e => simp [insOf, delOf]
  | deleteValue v =>
    simp only [applyOp]
    cases hok2 : (delete_value l v).2.1 with
    | false => simp [insOf, delOf, delete_value_false_noop l v hok2]
    | true =>
      have hl := delete_value_true_length l v hok2
      simp [insOf, delOf]
      omega

theorem runCount_invariant (ops : List Op) : ∀ l : LinkedList,
    (runCount l ops).1.length + (runCount l ops).2.2 =
      l.length + (runCount l ops).2.1 := by
  induction ops with
  | nil => intro l; simp [runCount]
  | cons op ops ih =>
    intro l
    simp only [runCount]
    have h1 := applyOp_length l op
    have h2 := ih (applyOp l op).1
    omega

/-- C7: over any operation sequence started on the empty list, size equals the
number of successful insertions minus the number of successful deletions, and
the deletions never outnumber the insertions. -/
theorem size_counts_ins_minus_del (ops : List Op) :
    size (runCount mkEmpty ops).1 =
      (runCount mkEmpty ops).2.1 - (runCount mkEmpty ops).2.2 ∧
    (runCount mkEmpty ops).2.2 ≤ (runCount mkEmpty ops).2.1 := by
  have hinv := runCount_invariant ops mkEmpty
  have h0 : mkEmpty.length = 0 := rfl
  simp only [size]
  omega

/-- C1: every public operation, render included, preserves the structural
invariants: the length field equals the number of reachable nodes (the chain
being acyclic with a null final successor by representation), and the head is
null exactly when the length is zero. -/
theorem ops_preserve_invariants (l : LinkedList) (op : Op) (h : WF l) :
    WF (applyOp l op).1 ∧
      ((applyOp l op).1.head = [] ↔ (applyOp l op).1.length = 0) := by
  have hwf : WF (applyOp l op).1 := by
    cases op with
    | pushFront v => simpa [applyOp, push_front, WF] using h
    | pushBack v => simpa [applyOp, push_back, WF, appendNode_eq] using h
    | render => exact h
    | insertAt i v =>
      simp only [applyOp]
      by_cases hle : i ≤ l.length
      · rw [insert_at_eq_ok l i v h hle]
        simp only [WF] at h ⊢
        simp [List.length_take, List.length_drop]
        omega
      · rw [insert_at_eq_oor l i v (by omega)]
        exact h
    | deleteAt i =>
      simp only [applyOp]
      by_cases h0 : l.length = 0
      · rw [delete_at_eq_empty l i h0]
        exact h
      · by_cases hge : i ≥ l.length
        · rw [delete_at_eq_oor l i h0 hge]
          exact h
        · rw [delete_at_eq_ok l i (by omega)]
          simp only [WF] at h ⊢
          simp [List.length_take, List.length_drop]
          omega
    | deleteValue v =>
      simp only [applyOp]
      by_cases h0 : l.length = 0
      · rw [delete_value_eq_empty l v h0]
        exact h
      · cases hh : l.head with
        | nil =>
          exfalso
          rw [h, hh] at h0
          exact h0 rfl
        | cons x rest =>
          by_cases hx : x = v
          · subst hx
            rw [delete_value_eq_headhit l x h0 rest hh]
            simp only [WF] at h ⊢
            rw [h, hh]
            simp
          · rw [delete_value_eq_scan l v h0 x rest hh hx]
            cases hm : removeFirstMatch v rest with
            | none => exact h
            | some r2 =>
              have hr := removeFirstMatch_length v rest r2 hm
              simp only [WF] at h ⊢
              rw [h, hh]
              simp only [List.length_cons]
              omega
  exact ⟨hwf, WF_head_nil_iff _ hwf⟩

/-- Witness for C1: inserting at the back position of a one-node list. -/
theorem ops_preserve_invariants_witness :
    WF (applyOp ⟨[5], 1⟩ (Op.insertAt 1 7)).1 ∧
      ((applyOp ⟨[5], 1⟩ (Op.insertAt 1 7)).1.head = [] ↔
        (applyOp ⟨[5], 1⟩ (Op.insertAt 1 7)).1.length = 0) :=
  ops_preserve_invariants ⟨[5], 1⟩ (Op.insertAt 1 7) rfl

/-- C2: insert_at throws out_of_range exactly when the index exceeds the
length; otherwise it succeeds, the new value sits at the given position with
the subsequent elements shifted back, and the length grows by one. -/
theorem insert_at_correct (l : LinkedList) (index : Nat) (value : Int) (h : WF l) :
    (index > l.length → insert_at l index value = Except.error "Index out of range") ∧
    (index ≤ l.length →
      insert_at l index value =
        Except.ok { head := l.head.take index ++ value :: l.head.drop index,
                    length := l.length + 1 } ∧
      (l.head.take index ++ value :: l.head.drop index)[index]? = some value) :=
  ⟨fun hgt => insert_at_eq_oor l index value hgt,
   fun hle => ⟨insert_at_eq_ok l index value h hle,
               get_at_splice l.head index value (by rw [← h]; exact hle)⟩⟩

/-- Witness for C2: on the empty list, index 1 throws and index 0 succeeds. -/
theorem insert_at_correct_witness :
    insert_at mkEmpty 1 99 = Except.error "Index out of range" ∧
    insert_at mkEmpty 0 99 = Except.ok { head := [99], length := 1 } :=
  ⟨(insert_at_correct mkEmpty 1 99 rfl).1 (by decide),
   by
     have hsucc := ((insert_at_correct mkEmpty 0 99 rfl).2 (by decide)).1
     simpa using hsucc⟩

/-- C3: delete_at never throws; on an empty list or an index at or past the
length it returns false with a diagnostic and no state change, and on an index
below the length it removes exactly the node at that position and decrements
the length field by one. -/
theorem delete_at_correct (l : LinkedList) (index : Nat) :
    (∃ r, delete_at l index = Except.ok r) ∧
    (l.length = 0 → delete_at l index = Except.ok (l, false, some diagDeleteAtEmpty)) ∧
    (l.length ≠ 0 → index ≥ l.length →
      delete_at l index = Except.ok (l, false, some diagIndexOutOfRange)) ∧
    (index < l.length →
      delete_at l index =
        Except.ok ({ head := l.head.take index ++ l.head.drop (index + 1),
                     length := l.length - 1 }, true, none)) := by
  refine ⟨?_, fun h0 => delete_at_eq_empty l index h0,
          fun h0 hge => delete_at_eq_oor l index h0 hge,
          fun hlt => delete_at_eq_ok l index hlt⟩
  by_cases h0 : l.length = 0
  · exact ⟨_, delete_at_eq_empty l index h0⟩
  · by_cases hge : index ≥ l.length
    · exact ⟨_, delete_at_eq_oor l index h0 hge⟩
    · exact ⟨_, delete_at_eq_ok l index (by omega)⟩

/-- C4: delete_value removes the first node holding the value, scanning from
the front, decrementing the length field and returning true; it returns false
with a diagnostic and no state change exactly when the list is empty or the
value is absent. -/
theorem delete_value_correct (l : LinkedList) (value : Int) (h : WF l) :
    (l.length = 0 → delete_value l value = (l, false, some diagDeleteValueEmpty)) ∧
    (l.length ≠ 0 → value ∉ l.head →
      delete_value l value = (l, false, some diagValueNotFound)) ∧
    (value ∈ l.head → ∃ p q, l.head = p ++ value :: q ∧ value ∉ p ∧
      delete_value l value =
        ({ head := p ++ q, length := l.length - 1 }, true, none)) :=
  ⟨fun h0 => delete_value_eq_empty l value h0,
   fun h0 hnm => delete_value_eq_notfound l value h h0 hnm,
   fun hm => delete_value_eq_found l value h hm⟩

/-- Witness for C4: deleting the absent value 42 from the three-node list
fails with the not-found diagnostic and changes nothing. -/
theorem delete_value_correct_witness :
    delete_value ⟨[1, 2, 3], 3⟩ 42 = (⟨[1, 2, 3], 3⟩, false, some diagValueNotFound) :=
  (delete_value_correct ⟨[1, 2, 3], 3⟩ 42 rfl).2.1 (by decide) (by decide)

/-- C8: the three failure scenarios emit diagnostics of pairwise distinct
categories: the empty-list diagnostics of delete_at and delete_value, the
out-of-range diagnostic of delete_at on a non-empty list, and the not-found
diagnostic of delete_value differ across categories as strings. -/
theorem diagnostics_distinct_by_category (l : LinkedList) (index : Nat)
    (value : Int) (h : WF l) :
    (l.length = 0 →
      delete_at l index = Except.ok (l, false, some diagDeleteAtEmpty) ∧
      delete_value l value = (l, false, some diagDeleteValueEmpty)) ∧
    (l.length ≠ 0 → index ≥ l.length →
      delete_at l index = Except.ok (l, false, some diagIndexOutOfRange)) ∧
    (l.length ≠ 0 → value ∉ l.head →
      delete_value l value = (l, false, some diagValueNotFound)) ∧
    (diagDeleteAtEmpty ≠ diagIndexOutOfRange ∧ diagDeleteAtEmpty ≠ diagValueNotFound ∧
      diagDeleteValueEmpty ≠ diagIndexOutOfRange ∧
      diagDeleteValueEmpty ≠ diagValueNotFound ∧
      diagIndexOutOfRange ≠ diagValueNotFound) :=
  ⟨fun h0 => ⟨delete_at_eq_empty l index h0, delete_value_eq_empty l value h0⟩,
   fun h0 hge => delete_at_eq_oor l index h0 hge,
   fun h0 hnm => delete_value_eq_notfound l value h h0 hnm,
   by decide⟩

/-- Witness for C8: concrete out-of-range and not-found failures on a
one-node list, with their diagnostics distinct. -/
theorem diagnostics_distinct_by_category_witness :
    delete_at ⟨[1], 1⟩ 5 = Except.ok (⟨[1], 1⟩, false, some diagIndexOutOfRange) ∧
    delete_value ⟨[1], 1⟩ 42 = (⟨[1], 1⟩, false, some diagValueNotFound) ∧
    diagIndexOutOfRange ≠ diagValueNotFound :=
  ⟨(diagnostics_distinct_by_category ⟨[1], 1⟩ 5 42 rfl).2.1 (by decide) (by decide),
   (diagnostics_distinct_by_category ⟨[1], 1⟩ 5 42 rfl).2.2.1 (by decide) (by decide),
   ((diagnostics_distinct_by_category ⟨[1], 1⟩ 5 42 rfl).2.2.2).2.2.2.2⟩

end LinkedListC
